import Mathlib

/-!
Verification of the chores recurrence-scheduling core.

The Rust sources are embedded shallowly:
* strings are `List Char`; `&str` helpers (`trim`, `split`, `i32::from_str`)
  are re-implemented below with the same semantics;
* `chrono` instants are integers counting minutes since an epoch; a
  configured fixed-offset time zone is an explicit integer parameter `off`
  (minutes to add to UTC to obtain local time); a calendar date is the
  integer number of local days since the epoch;
* fallible Rust code (a `%` whose divisor may be zero, i.e. a panic) is
  modelled with `Option`;
* `Utc::now()` read inside the Rust functions is threaded through as an
  explicit `now` parameter.
-/

namespace Chores

/-! ## Day-range codec (src/tasks.rs, parse_day_range / format_day_range) -/

/-- Whitespace-trim of a character list from the left, modelling
`str::trim_start` (on the character classes that occur here). -/
def trimLeft (s : List Char) : List Char :=
  s.dropWhile Char.isWhitespace

/-- Whitespace-trim from both ends, modelling `str::trim`. -/
def trim (s : List Char) : List Char :=
  ((trimLeft s).reverse.dropWhile Char.isWhitespace).reverse

/-- Helper for `splitOnChar`: accumulates the current field (reversed). -/
def splitAux (c : Char) : List Char → List Char → List (List Char)
  | [], acc => [acc.reverse]
  | x :: xs, acc => if x = c then acc.reverse :: splitAux c xs [] else splitAux c xs (x :: acc)

/-- Split on a separator character, modelling `str::split(c)`: every field is
kept, including empty ones, and the result is never empty. -/
def splitOnChar (c : Char) (s : List Char) : List (List Char) :=
  splitAux c s []

/-- Value of a run of ASCII digits, or `none` on a non-digit or empty input. -/
def digitsVal : List Char → Nat → Option Nat
  | [], acc => some acc
  | c :: cs, acc => if c.isDigit then digitsVal cs (acc * 10 + (c.toNat - 48)) else none

/-- Parse a non-empty all-digit character list. -/
def parseDigits (s : List Char) : Option Nat :=
  match s with
  | [] => none
  | _ :: _ => digitsVal s 0

/-- Model of `i32::from_str`: optional sign, one or more ASCII digits, with
the `i32` overflow check. -/
def parseI32 (s : List Char) : Option Int :=
  match s with
  | '+' :: rest => (parseDigits rest).bind fun n =>
      if (n : Int) ≤ 2147483647 then some (n : Int) else none
  | '-' :: rest => (parseDigits rest).bind fun n =>
      if (n : Int) ≤ 2147483648 then some (-(n : Int)) else none
  | _ => (parseDigits s).bind fun n =>
      if (n : Int) ≤ 2147483647 then some (n : Int) else none

/-- Model of `Vec::dedup`: remove consecutive duplicates. -/
def dedupConsec : List Int → List Int
  | [] => []
  | [a] => [a]
  | a :: b :: rest => if a = b then dedupConsec (b :: rest) else a :: dedupConsec (b :: rest)

/-- The `for day in start..=end` push loop of `parse_day_range`, with the
iteration count made explicit as `Nat` fuel. -/
def pushRangeGo : Int → Nat → List Int → Except String (List Int)
  | _, 0, days => .ok days
  | d, Nat.succ k, days =>
    if d < 1 ∨ 31 < d then .error ("Day " ++ toString d ++ " is out of range (1-31)")
    else pushRangeGo (d + 1) k (days ++ [d])

/-- The `for part in input.split(',')` loop body of `parse_day_range`. -/
def processParts : List (List Char) → List Int → Except String (List Int)
  | [], days => .ok days
  | p :: ps, days =>
    let part := trim p
    if part = [] then processParts ps days
    else if part.contains '-' then
      match splitOnChar '-' part with
      | [a, b] =>
        match parseI32 (trim a) with
        | none => .error ("Invalid number: '" ++ String.mk (trim a) ++ "'")
        | some start =>
          match parseI32 (trim b) with
          | none => .error ("Invalid number: '" ++ String.mk (trim b) ++ "'")
          | some stop =>
            if stop < start then
              .error ("Range start must be <= end: '" ++ String.mk part ++ "'")
            else
              match pushRangeGo start (stop + 1 - start).toNat days with
              | .error e => .error e
              | .ok days2 => processParts ps days2
      | _ => .error ("Invalid range format: '" ++ String.mk part ++ "'")
    else
      match parseI32 part with
      | none => .error ("Invalid number: '" ++ String.mk part ++ "'")
      | some day =>
        if day < 1 ∨ 31 < day then
          .error ("Day " ++ toString day ++ " is out of range (1-31)")
        else processParts ps (days ++ [day])

/-- Model of `parse_day_range` (src/tasks.rs lines 23-80). -/
def parse_day_range (input : List Char) : Except String (List Int) :=
  let input := trim input
  if input = [] then .error "Please enter at least one day"
  else
    match processParts (splitOnChar ',' input) [] with
    | .error e => .error e
    | .ok days =>
      if days = [] then .error "Please enter at least one day"
      else .ok (dedupConsec (List.insertionSort (· ≤ ·) days))

/-- Decimal rendering of an integer, modelling `format!` of an `i32`. -/
def intChars (i : Int) : List Char :=
  (toString i).data

/-- Rendering of one maximal run, as in `format_day_range`. -/
def renderRange (s e : Int) : List Char :=
  if s = e then intChars s else intChars s ++ '-' :: intChars e

/-- The run-building loop of `format_day_range`: `rs`/`re` are the
`range_start`/`range_end` variables. -/
def buildRanges : Int → Int → List Int → List (List Char)
  | rs, re, [] => [renderRange rs re]
  | rs, re, d :: rest =>
    if d = re + 1 then buildRanges rs d rest else renderRange rs re :: buildRanges d d rest

/-- Model of `Vec::join(", ")`. -/
def joinComma : List (List Char) → List Char
  | [] => []
  | [p] => p
  | p :: q :: ps => p ++ ',' :: ' ' :: joinComma (q :: ps)

/-- Model of `format_day_range` (src/tasks.rs lines 84-121). -/
def format_day_range (days : List Int) : List Char :=
  if days = [] then []
  else
    let sorted_days := dedupConsec (List.insertionSort (· ≤ ·) days)
    match sorted_days with
    | [] => []
    | d0 :: rest => joinComma (buildRanges d0 d0 rest)

/-- Does `s` start with `pat`? -/
def startsWith : List Char → List Char → Bool
  | [], _ => true
  | _ :: _, [] => false
  | a :: pat, b :: s => a = b && startsWith pat s

/-- Does `s` contain `pat` as a contiguous substring? -/
def hasInfix : List Char → List Char → Bool
  | [], pat => startsWith pat []
  | c :: rest, pat => startsWith pat (c :: rest) || hasInfix rest pat

/-- The list `start..=stop` of days pushed by a successful range token. -/
def closedRange (s e : Int) : List Int :=
  List.map (fun i : Nat => s + (i : Int)) (List.range (e + 1 - s).toNat)

/-- Did the parser fail with a message containing the given text? -/
def errContains (r : Except String (List Int)) (sub : String) : Bool :=
  match r with
  | .error m => hasInfix m.data sub.data
  | .ok _ => false

/-! ## Time and calendar model

An instant is an integer number of minutes since the epoch (UTC).  The
configured time zone is a fixed offset `off` in minutes: local time of an
instant `x` is `x + off`.  A calendar date is the number of the local day,
`(x + off).ediv 1440`. -/

/-- Day of the week; day number 0 of the epoch is a Thursday. -/
inductive Weekday
  | sun | mon | tue | wed | thu | fri | sat
deriving DecidableEq

/-- The calendar date (local day number) containing a local time value. -/
def localDay (x : Int) : Int := x.ediv 1440

/-- Weekday of a day number (day 0 is a Thursday, as for 1970-01-01). -/
def weekdayOfDay (z : Int) : Weekday :=
  match (z.emod 7).toNat with
  | 0 => .thu | 1 => .fri | 2 => .sat | 3 => .sun | 4 => .mon | 5 => .tue | _ => .wed

/-- Gregorian (year, month, day) of a day number counted from 1970-01-01,
by the standard days-to-civil algorithm. -/
def civilFromDays (z : Int) : Int × Int × Int :=
  let z := z + 719468
  let era := z.ediv 146097
  let doe := z - era * 146097
  let yoe := (doe - doe.ediv 1460 + doe.ediv 36524 - doe.ediv 146096).ediv 365
  let y := yoe + era * 400
  let doy := doe - (365 * yoe + yoe.ediv 4 - yoe.ediv 100)
  let mp := (5 * doy + 2).ediv 153
  let d := doy - (153 * mp + 2).ediv 5 + 1
  let m := mp + (if mp < 10 then 3 else -9)
  (y + (if m ≤ 2 then 1 else 0), m, d)

/-- Day of the month (1-31) of a day number, as `chrono`'s `Datelike::day`. -/
def dayOfMonth (z : Int) : Int := (civilFromDays z).2.2

/-- Month (1-12) of a day number, as `chrono`'s `Datelike::month`. -/
def monthOfDay (z : Int) : Int := (civilFromDays z).2.1

/-! ## Schedule variants (src/schedule.rs) -/

/-- A weekday mask plus a wall-clock time (minutes after local midnight). -/
structure DaysOfWeek where
  sunday : Bool
  monday : Bool
  tuesday : Bool
  wednesday : Bool
  thursday : Bool
  friday : Bool
  saturday : Bool
  time : Int

/-- Direct lookup, modelling `DaysOfWeek::active`. -/
def DaysOfWeek.active (s : DaysOfWeek) (day : Weekday) : Bool :=
  match day with
  | .sun => s.sunday
  | .mon => s.monday
  | .tue => s.tuesday
  | .wed => s.wednesday
  | .thu => s.thursday
  | .fri => s.friday
  | .sat => s.saturday

/-- A one-time event at a specific instant. -/
structure Once where
  datetime : Int

/-- Every so-and-so-many days, at a certain time. -/
structure NDays where
  days : Int
  time : Int

/-- Every so-and-so-many weeks on a weekday mask. -/
structure NWeeks where
  weeks : Int
  sub_schedule : DaysOfWeek

/-- On certain days of each month at a certain time. -/
structure Monthwise where
  days : List Int
  time : Int

/-- On weekdays of certain week ordinals of each month. -/
structure WeeksOfMonth where
  weeks : List Int
  sub_schedule : DaysOfWeek

/-- On certain days of certain months at a certain time. -/
structure CertainMonths where
  months : List Int
  days : List Int
  time : Int

/-- Which schedule variant is active. -/
inductive ScheduleKind
  | NDays | NWeeks | Monthwise | WeeksOfMonth | CertainMonths | Once
deriving DecidableEq

/-- The schedule record of src/schedule.rs: one active variant, all
parameter sets retained. -/
structure Schedule where
  kind : ScheduleKind
  n_days : NDays
  n_weeks : NWeeks
  monthwise : Monthwise
  weeks_of_month : WeeksOfMonth
  certain_months : CertainMonths
  once : Once

/-- The backward day loop of `NWeeks::most_recent_due_date`
(src/schedule.rs lines 108-118); `db` is `days_back`, the fuel counts the
remaining iterations of `1..=(7 * weeks)`. -/
def nweeksBackSearch (off now : Int) (s : NWeeks) : Int → Nat → Int
  | _, 0 => now
  | db, Nat.succ k =>
    let check_date := localDay (now + off - db * 1440)
    if s.sub_schedule.active (weekdayOfDay check_date) then
      check_date * 1440 + s.sub_schedule.time - off
    else nweeksBackSearch off now s (db + 1) k

/-- Model of `NWeeks::most_recent_due_date` (src/schedule.rs lines 87-123). -/
def NWeeks.most_recent_due_date (off now : Int) (s : NWeeks) : Int :=
  let today := localDay (now + off)
  if s.sub_schedule.active (weekdayOfDay today) then
    let today_at_time := today * 1440 + s.sub_schedule.time - off
    if today_at_time ≤ now then today_at_time
    else nweeksBackSearch off now s 1 (7 * s.weeks).toNat
  else nweeksBackSearch off now s 1 (7 * s.weeks).toNat

/-! ## The demo task and its due-date search (src/tasks.rs) -/

/-- Model of `DemoTask` (src/tasks.rs lines 1637-1653). -/
structure DemoTask where
  id : String
  name : String
  details : String
  schedule_kind : ScheduleKind
  n_days : NDays
  n_weeks : NWeeks
  monthwise : Monthwise
  weeks_of_month : WeeksOfMonth
  certain_months : CertainMonths
  once : Once
  alerting_time : Int
  completeable : Bool
  created_at : Option Int
  deleted_at : Option Int

/-- Model of `is_due_on_date` (src/tasks.rs lines 942-991).  The `NDays`
arm computes `days_diff % days`, a Rust `%` that panics when `days == 0`;
that panic is the `none` value. -/
def is_due_on_date (off now : Int) (task : DemoTask) (date : Int) : Option Bool :=
  if (match task.created_at with
      | some created_at => decide (date < localDay (created_at + off))
      | none => false) then some false
  else if (match task.deleted_at with
      | some deleted_at => decide (localDay (deleted_at + off) < date)
      | none => false) then some false
  else
    match task.schedule_kind with
    | .NDays =>
      let today := localDay (now + off)
      let days_diff := ((date - today).natAbs : Int)
      if task.n_days.days = 0 then none
      else some (days_diff.tmod task.n_days.days == 0)
    | .NWeeks => some (task.n_weeks.sub_schedule.active (weekdayOfDay date))
    | .Monthwise => some (task.monthwise.days.contains (dayOfMonth date))
    | .WeeksOfMonth =>
      some (task.weeks_of_month.sub_schedule.active (weekdayOfDay date) &&
        task.weeks_of_month.weeks.contains ((dayOfMonth date - 1).ediv 7 + 1))
    | .CertainMonths =>
      some (task.certain_months.months.contains (monthOfDay date) &&
        task.certain_months.days.contains (dayOfMonth date))
    | .Once => some (date == localDay (task.once.datetime + off))

/-- Model of `get_due_time` (src/tasks.rs lines 993-1005): wall-clock due
time (minutes after local midnight) for a matching date.  The date argument
is unused, as in the source (`_date`). -/
def get_due_time (off : Int) (task : DemoTask) (_date : Int) : Int :=
  match task.schedule_kind with
  | .NDays => task.n_days.time
  | .NWeeks => task.n_weeks.sub_schedule.time
  | .Monthwise => task.monthwise.time
  | .WeeksOfMonth => task.weeks_of_month.sub_schedule.time
  | .CertainMonths => task.certain_months.time
  | .Once => (task.once.datetime + off).emod 1440

/-- The `tz.from_local_datetime(check_date.and_time(due_time))` conversion:
the absolute (UTC) instant of the due occurrence on a given date. -/
def occurrenceAt (off : Int) (task : DemoTask) (date : Int) : Int :=
  date * 1440 + get_due_time off task date - off

/-- The forward day loop of `DemoTask::next_due_date` (src/tasks.rs lines
1671-1685); the fuel counts the remaining iterations of `0..=1000` and the
`Int` argument is the date currently checked.  Exhaustion yields the
distant-future sentinel `now + 10000 days`. -/
def nextDueSearch (off now : Int) (task : DemoTask) : Int → Nat → Option Int
  | _, 0 => some (now + 14400000)
  | date, Nat.succ k =>
    match is_due_on_date off now task date with
    | none => none
    | some b =>
      if b then
        let at_time := occurrenceAt off task date
        if now < at_time then some at_time
        else nextDueSearch off now task (date + 1) k
      else nextDueSearch off now task (date + 1) k

/-- Model of `DemoTask::next_due_date` (src/tasks.rs lines 1658-1689). -/
def DemoTask.next_due_date (off now : Int) (task : DemoTask) : Option Int :=
  if task.schedule_kind = ScheduleKind.Once then some task.once.datetime
  else nextDueSearch off now task (localDay (now + off)) 1001

/-- The backward day loop of `DemoTask::most_recent_due_date` (src/tasks.rs
lines 1797-1811); the fuel counts the remaining iterations of `0..=60`.
Exhaustion yields the fallback `now - 60 days`. -/
def mostRecentSearch (off now : Int) (task : DemoTask) : Int → Nat → Option Int
  | _, 0 => some (now - 86400)
  | date, Nat.succ k =>
    match is_due_on_date off now task date with
    | none => none
    | some b =>
      if b then
        let at_time := occurrenceAt off task date
        if at_time ≤ now then some at_time
        else mostRecentSearch off now task (date - 1) k
      else mostRecentSearch off now task (date - 1) k

/-- Model of `DemoTask::most_recent_due_date` (src/tasks.rs lines 1790-1815). -/
def DemoTask.most_recent_due_date (off now : Int) (task : DemoTask) : Option Int :=
  mostRecentSearch off now task (localDay (now + off)) 61

/-- Model of `DemoTask::is_inactive` (src/tasks.rs lines 1767-1785). -/
def DemoTask.is_inactive (now : Int) (task : DemoTask) : Bool :=
  (match task.created_at with
   | some created_at => decide (now < created_at)
   | none => false) ||
  (match task.deleted_at with
   | some deleted_at => decide (deleted_at < now)
   | none => false)

/-- Model of `DemoTask::is_due` (src/tasks.rs lines 1745-1751). -/
def DemoTask.is_due (off now : Int) (task : DemoTask) : Option Bool :=
  if task.is_inactive now then some false
  else (DemoTask.next_due_date off now task).map fun nd => decide (nd ≤ now)

/-- Model of `DemoTask::is_alerting` (src/tasks.rs lines 1754-1764). -/
def DemoTask.is_alerting (off now : Int) (task : DemoTask) : Option Bool :=
  if task.is_inactive now then some false
  else (DemoTask.next_due_date off now task).map fun next_due =>
    decide (now < next_due) && decide (next_due ≤ now + task.alerting_time)

/-- Model of `DemoTask::is_once_completed` (src/tasks.rs lines 1700-1702). -/
def DemoTask.is_once_completed (now : Int) (task : DemoTask) : Bool :=
  decide (task.schedule_kind = ScheduleKind.Once) && decide (task.once.datetime ≤ now)

/-! ## Completions (src/task.rs and src/db.rs) -/

/-- A completion record timestamp (src/task.rs). -/
structure Completion where
  when : Int
deriving DecidableEq

/-- Model of `Task` (src/task.rs lines 4-9). -/
structure Task where
  name : String
  schedule : Schedule
  completions : Option (List Completion)
  alerting_time : Option Int

/-- Model of `Task::last_completion` (src/task.rs lines 35-41).  As in the
source, a copy `c` of the list is sorted by timestamp and then discarded;
the returned element is the last of the original, unsorted list. -/
def Task.last_completion (t : Task) : Option Completion :=
  (t.completions.map fun completions =>
    let _c := List.insertionSort (fun a b => a.when ≤ b.when) completions
    completions.getLast?).join

/-- Model of `db::get_latest_completion` (src/db.rs lines 105-114): the SQL
query orders the stored RFC3339 strings descending and takes the first,
i.e. it returns the maximum completion timestamp. -/
def get_latest_completion (completions : List Int) : Option Int :=
  completions.foldl (fun acc t =>
    match acc with
    | none => some t
    | some m => some (max m t)) none

/-- The completion classification of the homepage handler (src/tasks.rs
lines 401-418): a completeable task is completed iff its latest recorded
completion is strictly after its most recent due date. -/
def homepage_is_completed (off now : Int) (task : DemoTask)
    (completions : List Int) : Option Bool :=
  match get_latest_completion completions with
  | some completion_time =>
    (DemoTask.most_recent_due_date off now task).map fun mrd =>
      decide (mrd < completion_time)
  | none => some false

/-! ## Concrete fixtures used by witnesses and counterexamples -/

/-- All-inactive weekday mask (due at 09:00). -/
def noneDow : DaysOfWeek :=
  ⟨false, false, false, false, false, false, false, 540⟩

/-- All-active weekday mask (due at 10:00). -/
def allDow : DaysOfWeek :=
  ⟨true, true, true, true, true, true, true, 600⟩

/-- Base concrete task for fixtures. -/
def fixtureTask : DemoTask :=
  { id := "", name := "", details := "",
    schedule_kind := .Once,
    n_days := ⟨1, 540⟩,
    n_weeks := ⟨1, noneDow⟩,
    monthwise := ⟨[1], 540⟩,
    weeks_of_month := ⟨[1], noneDow⟩,
    certain_months := ⟨[1], [1], 540⟩,
    once := ⟨0⟩,
    alerting_time := 1440,
    completeable := true,
    created_at := none,
    deleted_at := none }

/-- A Once task with the given fixed instant. -/
def onceTask (t : Int) : DemoTask :=
  { fixtureTask with schedule_kind := .Once, once := ⟨t⟩ }

/-- A weekly task active on every weekday (so every date matches). -/
def dailyTask : DemoTask :=
  { fixtureTask with schedule_kind := .NWeeks, n_weeks := ⟨1, allDow⟩ }

/-- A weekly task with an empty weekday set (no date ever matches). -/
def emptyWeekTask : DemoTask :=
  { fixtureTask with schedule_kind := .NWeeks, n_weeks := ⟨1, noneDow⟩ }

/-- An every-n-days task with the unguarded `days = 0`. -/
def zeroNDaysTask : DemoTask :=
  { fixtureTask with schedule_kind := .NDays, n_days := ⟨0, 540⟩ }

/-- A task whose validity window starts in the future. -/
def futureTask : DemoTask :=
  { fixtureTask with created_at := some 1000 }

/-- An every-3-days task. -/
def ndays3Task : DemoTask :=
  { fixtureTask with schedule_kind := .NDays, n_days := ⟨3, 540⟩ }

/-- A weekly schedule record with an empty weekday set. -/
def nw0 : NWeeks := ⟨1, noneDow⟩

/-- A concrete full schedule record (active variant: weekly). -/
def exampleSchedule : Schedule :=
  ⟨.NWeeks, ⟨1, 540⟩, nw0, ⟨[1], 540⟩, ⟨[1], noneDow⟩, ⟨[1], [1], 540⟩, ⟨0⟩⟩

/-- A task whose stored completion list holds a late completion (instant
100) followed by an earlier one (instant 10), as after inserting an older
record at the end. -/
def staleOrderTask : Task :=
  ⟨"Dishes", exampleSchedule, some [⟨100⟩, ⟨10⟩], none⟩

end Chores

namespace Chores

/-! ## Theorems -/

/-- The forward search only ever answers with an instant strictly after
`now`: every returned `at_time` passed the `at_time > now` test, and the
exhaustion sentinel is `now + 10000` days. -/
theorem nextDueSearch_gt (off now : Int) (task : DemoTask) :
    ∀ (fuel : Nat) (d t : Int), nextDueSearch off now task d fuel = some t → now < t := by
  intro fuel
  induction fuel with
  | zero =>
    intro d t h
    simp only [nextDueSearch, Option.some.injEq] at h
    omega
  | succ k ih =>
    intro d t h
    simp only [nextDueSearch] at h
    cases hd : is_due_on_date off now task d with
    | none => rw [hd] at h; exact absurd h (by simp)
    | some b =>
      rw [hd] at h
      cases b with
      | false => exact ih _ _ (by simpa using h)
      | true =>
        simp only [if_true] at h
        split at h
        · simp only [Option.some.injEq] at h; omega
        · exact ih _ _ h

/-- C1, amended: for every schedule other than Once and every evaluation
instant `now`, any instant returned by `NextDue` is strictly greater than
`now`.  (For Once the fixed instant is returned even when it is in the
past; see the counterexample.) -/
theorem c1_nextDue_gt_now (off now : Int) (task : DemoTask) (t : Int)
    (hk : task.schedule_kind ≠ ScheduleKind.Once)
    (h : DemoTask.next_due_date off now task = some t) : now < t := by
  rw [DemoTask.next_due_date, if_neg hk] at h
  exact nextDueSearch_gt off now task _ _ _ h

/-- C1 counterexample: a Once schedule with fixed instant 0 evaluated at
`now = 1440` (one day later) returns 0, which is not strictly greater than
`now`; so `NextDue(schedule, now) <= now` is possible. -/
theorem c1_counterexample :
    DemoTask.next_due_date 0 1440 (onceTask 0) = some 0 ∧ ¬ ((1440 : Int) < 0) :=
  ⟨rfl, by decide⟩

/-- C1 witness: a concrete non-Once schedule (active every weekday at
10:00) evaluated at `now = 700` returns the instant 2040 > 700. -/
theorem c1_witness : (700 : Int) < 2040 :=
  c1_nextDue_gt_now 0 700 dailyTask 2040 (by decide) (by rfl)

/-- C7: for every Once schedule with instant T, `NextDue` returns exactly T
regardless of `now`, and `IsOnceCompleted` holds iff `now >= T`. -/
theorem c7_once (off now : Int) (task : DemoTask)
    (h : task.schedule_kind = ScheduleKind.Once) :
    DemoTask.next_due_date off now task = some task.once.datetime ∧
    (task.is_once_completed now = true ↔ task.once.datetime ≤ now) := by
  refine ⟨?_, ?_⟩
  · rw [DemoTask.next_due_date, if_pos h]
  · simp [DemoTask.is_once_completed, h]

/-- C7 witness: the Once task with instant 7, at `now = 5` and a nonzero
zone offset. -/
theorem c7_witness :
    DemoTask.next_due_date 3 5 (onceTask 7) = some 7 ∧
    (DemoTask.is_once_completed 5 (onceTask 7) = true ↔ (7 : Int) ≤ 5) :=
  c7_once 3 5 (onceTask 7) rfl

/-- C9: `IsInactive` holds iff `created_at` is set with `now` before it or
`deleted_at` is set with `now` after it, and an inactive task is never due
and never alerting, regardless of its schedule and completions. -/
theorem c9_inactive (off now : Int) (task : DemoTask) :
    (task.is_inactive now = true ↔
      (∃ c, task.created_at = some c ∧ now < c) ∨
      (∃ d, task.deleted_at = some d ∧ d < now)) ∧
    (task.is_inactive now = true →
      DemoTask.is_due off now task = some false ∧
      DemoTask.is_alerting off now task = some false) := by
  refine ⟨?_, ?_⟩
  · rw [DemoTask.is_inactive]
    cases task.created_at <;> cases task.deleted_at <;> simp
  · intro h
    rw [DemoTask.is_due, if_pos h, DemoTask.is_alerting, if_pos h]
    exact ⟨rfl, rfl⟩

/-- C9 witness: a task whose `created_at` lies in the future of `now = 5`
is neither due nor alerting. -/
theorem c9_witness :
    DemoTask.is_due 0 5 futureTask = some false ∧
    DemoTask.is_alerting 0 5 futureTask = some false :=
  (c9_inactive 0 5 futureTask).2 (by rfl)

/-- The date predicate is defined (never the `%`-by-zero panic) as soon as
an `NDays` schedule has a nonzero interval; every other variant is total
unconditionally. -/
theorem is_due_on_date_isSome (off now : Int) (task : DemoTask) (date : Int)
    (h : task.schedule_kind = ScheduleKind.NDays → task.n_days.days ≠ 0) :
    (is_due_on_date off now task date).isSome = true := by
  rw [is_due_on_date]
  split
  · rfl
  · split
    · rfl
    · cases hk : task.schedule_kind
      case NDays => rw [if_neg (h hk)]; rfl
      all_goals rfl

/-- The forward search is defined whenever the predicate is defined. -/
theorem nextDueSearch_isSome (off now : Int) (task : DemoTask)
    (h : task.schedule_kind = ScheduleKind.NDays → task.n_days.days ≠ 0) :
    ∀ (fuel : Nat) (d : Int), (nextDueSearch off now task d fuel).isSome = true := by
  intro fuel
  induction fuel with
  | zero => intro d; rfl
  | succ k ih =>
    intro d
    simp only [nextDueSearch]
    cases hd : is_due_on_date off now task d with
    | none =>
      have := is_due_on_date_isSome off now task d h
      rw [hd] at this
      exact absurd this (by simp)
    | some b =>
      cases b with
      | false => exact ih (d + 1)
      | true =>
        simp only [if_true]
        split
        · rfl
        · exact ih (d + 1)

/-- The backward search is defined whenever the predicate is defined. -/
theorem mostRecentSearch_isSome (off now : Int) (task : DemoTask)
    (h : task.schedule_kind = ScheduleKind.NDays → task.n_days.days ≠ 0) :
    ∀ (fuel : Nat) (d : Int), (mostRecentSearch off now task d fuel).isSome = true := by
  intro fuel
  induction fuel with
  | zero => intro d; rfl
  | succ k ih =>
    intro d
    simp only [mostRecentSearch]
    cases hd : is_due_on_date off now task d with
    | none =>
      have := is_due_on_date_isSome off now task d h
      rw [hd] at this
      exact absurd this (by simp)
    | some b =>
      cases b with
      | false => exact ih (d - 1)
      | true =>
        simp only [if_true]
        split
        · rfl
        · exact ih (d - 1)

/-- C10: with `days >= 1` the `NDays` branch of the date predicate is total
(the remainder's divisor is nonzero), so `MostRecentDue` and `NextDue` are
defined; and with the unguarded `days = 0` the `%` divisor is zero — the
predicate and both searches hit the panic (`none`) on a concrete task. -/
theorem c10_ndays_totality :
    (∀ (off now : Int) (task : DemoTask) (date : Int),
      task.schedule_kind = ScheduleKind.NDays → 1 ≤ task.n_days.days →
      (is_due_on_date off now task date).isSome = true) ∧
    (∀ (off now : Int) (task : DemoTask),
      task.schedule_kind = ScheduleKind.NDays → 1 ≤ task.n_days.days →
      (DemoTask.next_due_date off now task).isSome = true ∧
      (DemoTask.most_recent_due_date off now task).isSome = true) ∧
    (is_due_on_date 0 0 zeroNDaysTask 5 = none ∧
      DemoTask.next_due_date 0 0 zeroNDaysTask = none ∧
      DemoTask.most_recent_due_date 0 0 zeroNDaysTask = none) := by
  refine ⟨?_, ?_, by rfl, by rfl, by rfl⟩
  · intro off now task date hk hd
    exact is_due_on_date_isSome off now task date (fun _ => by omega)
  · intro off now task hk hd
    constructor
    · rw [DemoTask.next_due_date, if_neg (by rw [hk]; exact fun hc => by cases hc)]
      exact nextDueSearch_isSome off now task (fun _ => by omega) 1001 _
    · rw [DemoTask.most_recent_due_date]
      exact mostRecentSearch_isSome off now task (fun _ => by omega) 61 _

/-- C10 witness: the every-3-days task is total on a concrete date and its
searches are defined. -/
theorem c10_witness :
    (is_due_on_date 0 0 ndays3Task 7).isSome = true ∧
    (DemoTask.next_due_date 0 0 ndays3Task).isSome = true :=
  ⟨c10_ndays_totality.1 0 0 ndays3Task 7 rfl (by decide),
    (c10_ndays_totality.2.1 0 0 ndays3Task rfl (by decide)).1⟩

/-- If nothing matches in the whole backward window, the backward search
reaches its fallback `now - 60` days. -/
theorem mostRecentSearch_nomatch (off now : Int) (task : DemoTask) :
    ∀ (fuel : Nat) (d : Int),
      (∀ j : Int, d - fuel < j → j ≤ d → is_due_on_date off now task j = some false) →
      mostRecentSearch off now task d fuel = some (now - 86400) := by
  intro fuel
  induction fuel with
  | zero => intro d _; rfl
  | succ k ih =>
    intro d h
    simp only [mostRecentSearch]
    rw [h d (by push_cast; omega) le_rfl]
    exact ih (d - 1) (fun j h1 h2 => h j (by push_cast at h1 ⊢; omega) (by omega))

/-- If the weekday set is entirely inactive, the backward weekly loop of
`NWeeks::most_recent_due_date` falls through to `now`. -/
theorem nweeksBackSearch_nomatch (off now : Int) (s : NWeeks)
    (h : ∀ w, s.sub_schedule.active w = false) :
    ∀ (fuel : Nat) (db : Int), nweeksBackSearch off now s db fuel = now := by
  intro fuel
  induction fuel with
  | zero => intro db; rfl
  | succ k ih => intro db; simp [nweeksBackSearch, h, ih]

/-- C2, amended: a schedule whose predicate matches nothing in the backward
horizon does not fail, but the two implementations disagree on the
fallback: `DemoTask::most_recent_due_date` returns `now - 60` days (the
claimed `now - horizon`), while `NWeeks::most_recent_due_date` in
src/schedule.rs returns `now` itself. -/
theorem c2_fallbacks :
    (∀ (off now : Int) (task : DemoTask),
      (∀ j : Int, localDay (now + off) - 60 ≤ j → j ≤ localDay (now + off) →
        is_due_on_date off now task j = some false) →
      DemoTask.most_recent_due_date off now task = some (now - 86400)) ∧
    (∀ (off now : Int) (s : NWeeks),
      (∀ w : Weekday, s.sub_schedule.active w = false) →
      NWeeks.most_recent_due_date off now s = now) := by
  constructor
  · intro off now task h
    rw [DemoTask.most_recent_due_date]
    exact mostRecentSearch_nomatch off now task 61 (localDay (now + off))
      (fun j h1 h2 => h j (by push_cast at h1 ⊢; omega) h2)
  · intro off now s h
    rw [NWeeks.most_recent_due_date]
    simp [h, nweeksBackSearch_nomatch off now s h]

/-- C2 counterexample: for the all-inactive weekly schedule at `now = 0`,
`NWeeks::most_recent_due_date` returns `now = 0` and not the claimed
`now - horizon = 0 - 7 * 1440`. -/
theorem c2_counterexample :
    NWeeks.most_recent_due_date 0 0 nw0 = 0 ∧ (0 : Int) ≠ 0 - 7 * 1440 :=
  ⟨rfl, by decide⟩

/-- C2 witness: the all-inactive weekly schedule at `now = 123` falls back
to `now` itself. -/
theorem c2_witness : NWeeks.most_recent_due_date 0 123 nw0 = 123 :=
  c2_fallbacks.2 0 123 nw0 (fun w => by cases w <;> rfl)

/-- A local instant is strictly before the next local midnight of its day. -/
theorem lt_next_day (now off : Int) : now < (localDay (now + off) + 1) * 1440 - off := by
  have h1 : 1440 * ((now + off).ediv 1440) + (now + off).emod 1440 = now + off :=
    Int.ediv_add_emod _ _
  have h2 : 0 ≤ (now + off).emod 1440 := Int.emod_nonneg _ (by norm_num)
  have h3 : (now + off).emod 1440 < 1440 := Int.emod_lt_of_pos _ (by norm_num)
  rw [localDay]
  omega

/-- If the predicate answers `some true` somewhere, the `NDays` divisor
cannot be zero, so the predicate is defined on every date. -/
theorem is_due_some_of_hit (off now : Int) (task : DemoTask) (d0 : Int)
    (h : is_due_on_date off now task d0 = some true) (d : Int) :
    (is_due_on_date off now task d).isSome = true := by
  apply is_due_on_date_isSome
  intro hk hz
  rw [is_due_on_date] at h
  split at h
  · simp at h
  · split at h
    · simp at h
    · rw [hk] at h
      simp [hz] at h

/-- If all earlier offsets either do not match or have already elapsed, the
forward search returns the occurrence at the first later matching offset
that is still in the future. -/
theorem nextDueSearch_first (off now : Int) (task : DemoTask) :
    ∀ (fuel k : Nat) (d : Int), k < fuel →
      (∀ j : Nat, j < k →
        is_due_on_date off now task (d + j) = some false ∨
        (is_due_on_date off now task (d + j) = some true ∧
          occurrenceAt off task (d + j) ≤ now)) →
      is_due_on_date off now task (d + k) = some true →
      now < occurrenceAt off task (d + k) →
      nextDueSearch off now task d fuel = some (occurrenceAt off task (d + k)) := by
  intro fuel
  induction fuel with
  | zero => intro k d hk; exact absurd hk (Nat.not_lt_zero k)
  | succ f ih =>
    intro k d hk hprev hmatch hocc
    simp only [nextDueSearch]
    cases k with
    | zero =>
      have hm : is_due_on_date off now task d = some true := by simpa using hmatch
      rw [hm]
      simp only [if_true]
      rw [if_pos (by simpa using hocc)]
      simp
    | succ p =>
      have h0 := hprev 0 (Nat.succ_pos p)
      simp only [Nat.cast_zero, add_zero] at h0
      have heq : ∀ j : Nat, d + 1 + (j : Int) = d + ((j + 1 : Nat) : Int) := by
        intro j; push_cast; ring
      have hrec : nextDueSearch off now task (d + 1) f =
          some (occurrenceAt off task (d + 1 + (p : Int))) := by
        refine ih p (d + 1) (by omega) ?_ ?_ ?_
        · intro j hj
          rw [heq j]
          exact hprev (j + 1) (by omega)
        · rw [heq p]; exact hmatch
        · rw [heq p]; exact hocc
      rcases h0 with h0 | ⟨h0, hocc0⟩
      · rw [h0]
        rw [heq p] at hrec
        exact hrec
      · rw [h0]
        simp only [if_true]
        rw [if_neg (by omega)]
        rw [heq p] at hrec
        exact hrec

/-- First-iteration hit of the backward search. -/
theorem mostRecentSearch_today_hit (off now : Int) (task : DemoTask) (d : Int)
    (h1 : is_due_on_date off now task d = some true)
    (h2 : occurrenceAt off task d ≤ now) (k : Nat) :
    mostRecentSearch off now task d (Nat.succ k) = some (occurrenceAt off task d) := by
  simp only [mostRecentSearch]
  rw [h1]
  simp only [if_true]
  rw [if_pos h2]

/-- First-iteration hit of the forward search. -/
theorem nextDueSearch_today_hit (off now : Int) (task : DemoTask) (d : Int)
    (h1 : is_due_on_date off now task d = some true)
    (h2 : now < occurrenceAt off task d) (k : Nat) :
    nextDueSearch off now task d (Nat.succ k) = some (occurrenceAt off task d) := by
  simp only [nextDueSearch]
  rw [h1]
  simp only [if_true]
  rw [if_pos h2]

/-- C8, amended: when today's date matches the predicate,
(i) if today's occurrence has already elapsed, `MostRecentDue` returns
today's occurrence (it does not skip to an earlier day);
(ii) for non-Once schedules, if today's occurrence is still in the future,
`NextDue` returns today's occurrence; and
(iii) for non-Once schedules with nonnegative due times, if today's
occurrence has elapsed and some date within the 1000-day forward horizon
matches, `NextDue` returns the occurrence of the earliest such strictly
later matching date.  (The unamended claim fails for Once — see the
counterexample — and says nothing about the horizon.) -/
theorem c8_tiebreak (off now : Int) (task : DemoTask)
    (hmatch : is_due_on_date off now task (localDay (now + off)) = some true) :
    (occurrenceAt off task (localDay (now + off)) ≤ now →
      DemoTask.most_recent_due_date off now task =
        some (occurrenceAt off task (localDay (now + off)))) ∧
    (task.schedule_kind ≠ ScheduleKind.Once →
      now < occurrenceAt off task (localDay (now + off)) →
      DemoTask.next_due_date off now task =
        some (occurrenceAt off task (localDay (now + off)))) ∧
    (task.schedule_kind ≠ ScheduleKind.Once →
      (∀ d : Int, 0 ≤ get_due_time off task d) →
      occurrenceAt off task (localDay (now + off)) ≤ now →
      ∀ k0 : Nat, 1 ≤ k0 → k0 ≤ 1000 →
        is_due_on_date off now task (localDay (now + off) + k0) = some true →
        ∃ k : Nat, 1 ≤ k ∧ k ≤ 1000 ∧
          is_due_on_date off now task (localDay (now + off) + k) = some true ∧
          DemoTask.next_due_date off now task =
            some (occurrenceAt off task (localDay (now + off) + k))) := by
  refine ⟨?_, ?_, ?_⟩
  · intro hocc
    rw [DemoTask.most_recent_due_date]
    exact mostRecentSearch_today_hit off now task _ hmatch hocc 60
  · intro hk hocc
    rw [DemoTask.next_due_date, if_neg hk]
    exact nextDueSearch_today_hit off now task _ hmatch hocc 1000
  · intro hk ht hocc k0 hk01 hk0le hmatch0
    have hcast0 : (localDay (now + off) + 1 : Int) + ((k0 - 1 : Nat) : Int) =
        localDay (now + off) + (k0 : Int) := by
      push_cast [Nat.cast_sub hk01]
      ring
    have hP : ∃ j : Nat,
        is_due_on_date off now task (localDay (now + off) + 1 + j) = some true :=
      ⟨k0 - 1, by rw [hcast0]; exact hmatch0⟩
    have hk1 := Nat.find_spec hP
    have hk1le : Nat.find hP ≤ k0 - 1 := Nat.find_min' hP (by rw [hcast0]; exact hmatch0)
    have hcast1 : localDay (now + off) + ((Nat.find hP + 1 : Nat) : Int) =
        localDay (now + off) + 1 + (Nat.find hP : Int) := by
      push_cast
      ring
    have hoccnext : now < occurrenceAt off task
        (localDay (now + off) + ((Nat.find hP + 1 : Nat) : Int)) := by
      rw [occurrenceAt]
      have hday := lt_next_day now off
      have htd := ht (localDay (now + off) + ((Nat.find hP + 1 : Nat) : Int))
      push_cast at htd ⊢
      omega
    refine ⟨Nat.find hP + 1, by omega, by omega, ?_, ?_⟩
    · rw [hcast1]
      exact hk1
    · rw [DemoTask.next_due_date, if_neg hk]
      refine nextDueSearch_first off now task 1001 (Nat.find hP + 1) _ (by omega)
        ?_ (by rw [hcast1]; exact hk1) hoccnext
      intro j hj
      cases j with
      | zero =>
        right
        exact ⟨by simpa using hmatch, by simpa using hocc⟩
      | succ i =>
        left
        have hmin : ¬ is_due_on_date off now task
            (localDay (now + off) + 1 + i) = some true :=
          Nat.find_min hP (by omega)
        have hsome := is_due_some_of_hit off now task _ hmatch
          (localDay (now + off) + 1 + i)
        have hcast2 : localDay (now + off) + ((i + 1 : Nat) : Int) =
            localDay (now + off) + 1 + (i : Int) := by
          push_cast
          ring
        rw [hcast2]
        cases hval : is_due_on_date off now task (localDay (now + off) + 1 + i) with
        | none => rw [hval] at hsome; simp at hsome
        | some b =>
          cases b with
          | false => rfl
          | true => exact absurd hval hmin

/-- C8 counterexample: for the Once schedule with instant 600 at
`now = 700`, today (day 0) matches and today's occurrence 600 has elapsed,
yet `NextDue` returns 600 — today's past occurrence, not the occurrence of
any strictly later matching date (which, due times being nonnegative, would
lie after `now`). -/
theorem c8_counterexample :
    is_due_on_date 0 700 (onceTask 600) 0 = some true ∧
    occurrenceAt 0 (onceTask 600) 0 = 600 ∧
    DemoTask.next_due_date 0 700 (onceTask 600) = some 600 ∧
    ¬ ((700 : Int) < 600) :=
  ⟨rfl, rfl, rfl, by decide⟩

/-- C8 witness: the every-weekday task at `now = 700` (today's 10:00
occurrence, instant 600, has elapsed) gets `MostRecentDue` = today's
occurrence. -/
theorem c8_witness : DemoTask.most_recent_due_date 0 700 dailyTask = some 600 :=
  (c8_tiebreak 0 700 dailyTask (by rfl)).1 (by decide)

/-- C3 evidence (code bug): with `MostRecentDue = 50`, the completion list
`[100, 10]` has maximum timestamp 100 > 50, so the claim (and the homepage
query, which takes the maximum) classifies the chore completed; but
`Task::last_completion` sorts a copy of the list and then returns the last
element of the unsorted original, here the inserted older completion 10,
which is not after 50 — so the task.rs classification flips back to due. -/
theorem c3_last_completion_bug :
    Task.last_completion staleOrderTask = some ⟨10⟩ ∧
    get_latest_completion [100, 10] = some 100 ∧
    ¬ ((50 : Int) < 10) ∧ ((50 : Int) < 100) :=
  ⟨rfl, rfl, by decide, by decide⟩

/-! ## Day-range codec lemmas -/

/-- Membership is unchanged by consecutive-duplicate removal. -/
theorem mem_dedupConsec : ∀ (l : List Int) (x : Int), x ∈ dedupConsec l ↔ x ∈ l
  | [], x => by simp [dedupConsec]
  | [a], x => by simp [dedupConsec]
  | a :: b :: rest, x => by
    rw [dedupConsec]
    split
    next heq => rw [mem_dedupConsec (b :: rest) x]; subst heq; simp
    next hne => simp [List.mem_cons, mem_dedupConsec (b :: rest) x]

/-- On a `≤`-sorted list, consecutive-duplicate removal yields a strictly
sorted list. -/
theorem dedupConsec_sorted : ∀ l : List Int,
    l.Sorted (· ≤ ·) → (dedupConsec l).Sorted (· < ·)
  | [], _ => by simp [dedupConsec]
  | [a], _ => by simp [dedupConsec]
  | a :: b :: rest, h => by
    rw [dedupConsec]
    rcases List.sorted_cons.mp h with ⟨ha, hbr⟩
    split
    next heq => exact dedupConsec_sorted (b :: rest) hbr
    next hne =>
      refine List.sorted_cons.mpr ⟨?_, dedupConsec_sorted (b :: rest) hbr⟩
      intro x hx
      have hxmem : x ∈ b :: rest := (mem_dedupConsec _ _).mp hx
      rcases List.mem_cons.mp hxmem with rfl | hxr
      · exact lt_of_le_of_ne (ha x hxmem) hne
      · have hbx : b ≤ x := (List.sorted_cons.mp hbr).1 x hxr
        have hab : a ≤ b := ha b (by simp)
        have hanb : a < b := lt_of_le_of_ne hab hne
        omega

/-- A strictly sorted list has no consecutive duplicates. -/
theorem dedupConsec_eq_self : ∀ l : List Int, l.Sorted (· < ·) → dedupConsec l = l
  | [], _ => rfl
  | [_], _ => rfl
  | a :: b :: rest, h => by
    have hab : a < b := (List.sorted_cons.mp h).1 b (by simp)
    rw [dedupConsec, if_neg (by omega),
      dedupConsec_eq_self (b :: rest) (List.sorted_cons.mp h).2]

/-- Consecutive-duplicate removal preserves nonemptiness. -/
theorem dedupConsec_ne_nil : ∀ l : List Int, l ≠ [] → dedupConsec l ≠ []
  | [], h => h
  | [a], _ => by simp [dedupConsec]
  | a :: b :: rest, _ => by
    rw [dedupConsec]
    split
    · exact dedupConsec_ne_nil (b :: rest) (by simp)
    · simp

/-- Every day pushed by the range loop is within bounds or was already in
the accumulator. -/
theorem pushRangeGo_mem :
    ∀ (k : Nat) (d : Int) (days res : List Int),
      pushRangeGo d k days = .ok res → ∀ x ∈ res, x ∈ days ∨ (1 ≤ x ∧ x ≤ 31) := by
  intro k
  induction k with
  | zero =>
    intro d days res h x hx
    simp only [pushRangeGo, Except.ok.injEq] at h
    subst h
    exact Or.inl hx
  | succ k ih =>
    intro d days res h x hx
    simp only [pushRangeGo] at h
    split at h
    · simp at h
    next hcond =>
      rcases ih (d + 1) (days ++ [d]) res h x hx with hmem | hb
      · rcases List.mem_append.mp hmem with hmem | hmem
        · exact Or.inl hmem
        · right
          simp only [List.mem_singleton] at hmem
          subst hmem
          omega
      · exact Or.inr hb

/-- Every day accumulated by the token loop is within bounds or was
already in the accumulator. -/
theorem processParts_mem :
    ∀ (ps : List (List Char)) (days res : List Int),
      processParts ps days = .ok res → ∀ x ∈ res, x ∈ days ∨ (1 ≤ x ∧ x ≤ 31) := by
  intro ps
  induction ps with
  | nil =>
    intro days res h x hx
    simp only [processParts, Except.ok.injEq] at h
    subst h
    exact Or.inl hx
  | cons p ps ih =>
    intro days res h x hx
    simp only [processParts] at h
    split at h
    · exact ih days res h x hx
    · split at h
      · split at h
        · split at h
          · simp at h
          · split at h
            · simp at h
            · split at h
              · simp at h
              · split at h
                · simp at h
                next days2 heq =>
                  rcases ih days2 res h x hx with hmem | hb
                  · rcases pushRangeGo_mem _ _ _ _ heq x hmem with hmem2 | hb2
                    · exact Or.inl hmem2
                    · exact Or.inr hb2
                  · exact Or.inr hb
        · simp at h
      · split at h
        · simp at h
        · split at h
          · simp at h
          next hcond =>
            rcases ih _ res h x hx with hmem | hb
            · rcases List.mem_append.mp hmem with hmem | hmem
              · exact Or.inl hmem
              · right
                simp only [List.mem_singleton] at hmem
                subst hmem
                omega
            · exact Or.inr hb

/-- Structural facts about every successful parse: the result is nonempty,
strictly sorted, and within 1..31. -/
theorem parse_ok_props (s : List Char) (l : List Int)
    (h : parse_day_range s = .ok l) :
    l ≠ [] ∧ l.Sorted (· < ·) ∧ ∀ x ∈ l, 1 ≤ x ∧ x ≤ 31 := by
  simp only [parse_day_range] at h
  split at h
  · simp at h
  · split at h
    · simp at h
    next days heq =>
      split at h
      · simp at h
      next hdays =>
        simp only [Except.ok.injEq] at h
        subst h
        refine ⟨?_, ?_, ?_⟩
        · apply dedupConsec_ne_nil
          intro hnil
          apply hdays
          have hperm := List.perm_insertionSort (· ≤ ·) days
          rw [hnil] at hperm
          exact (List.Perm.eq_nil hperm.symm)
        · exact dedupConsec_sorted _ (List.sorted_insertionSort _ days)
        · intro x hx
          have hx2 := (mem_dedupConsec _ x).mp hx
          have hx3 := (List.mem_insertionSort _).mp hx2
          rcases processParts_mem _ _ _ heq x hx3 with hmem | hb
          · cases hmem
          · exact hb

/-- C5: every successful `ParseDayRange` result is non-empty, strictly
ascending (sorted with no duplicates), and each element lies in 1..31. -/
theorem c5_parse_sorted_bounded (s : List Char) (l : List Int)
    (h : parse_day_range s = .ok l) :
    l ≠ [] ∧ l.Sorted (· < ·) ∧ ∀ x ∈ l, 1 ≤ x ∧ x ≤ 31 :=
  parse_ok_props s l h

/-- C5 witness: parsing the concrete text "3, 1-2, 2" gives [1, 2, 3]. -/
theorem c5_witness :
    ([1, 2, 3] : List Int) ≠ [] ∧ ([1, 2, 3] : List Int).Sorted (· < ·) ∧
    ∀ x ∈ ([1, 2, 3] : List Int), 1 ≤ x ∧ x ≤ 31 :=
  c5_parse_sorted_bounded "3, 1-2, 2".data [1, 2, 3] (by rfl)

/-- Trimming an all-whitespace text yields the empty text. -/
theorem trim_nil_of_ws (s : List Char) (h : ∀ c ∈ s, c.isWhitespace = true) :
    trim s = [] := by
  have h1 : trimLeft s = [] := by
    rw [trimLeft, List.dropWhile_eq_nil_iff]
    exact fun c hc => h c hc
  simp [trim, h1]

/-- C6: `ParseDayRange("10-5")` errors mentioning "start must be <= end";
`ParseDayRange("32")` errors mentioning "out of range"; empty and
all-whitespace inputs error; trailing or empty comma-separated tokens are
skipped, not errors. -/
theorem c6_error_cases :
    errContains (parse_day_range "10-5".data) "start must be <= end" = true ∧
    errContains (parse_day_range "32".data) "out of range" = true ∧
    parse_day_range "".data = .error "Please enter at least one day" ∧
    (∀ s : List Char, (∀ c ∈ s, c.isWhitespace = true) →
      parse_day_range s = .error "Please enter at least one day") ∧
    parse_day_range "5,".data = .ok [5] ∧
    parse_day_range "1,,7,".data = .ok [1, 7] := by
  refine ⟨by rfl, by rfl, by rfl, ?_, by rfl, by rfl⟩
  intro s h
  simp [parse_day_range, trim_nil_of_ws s h]

/-- C6 witness: the concrete all-whitespace input "  " errors. -/
theorem c6_witness :
    parse_day_range "  ".data = .error "Please enter at least one day" :=
  c6_error_cases.2.2.2.1 "  ".data (by decide)

/-- Decimal renderings of 1..31 parse back to themselves and contain only
non-whitespace digit characters. -/
theorem intChars_good : ∀ n : Nat, n < 31 →
    parseI32 (intChars ((n : Int) + 1)) = some ((n : Int) + 1) ∧
    ('-' ∈ intChars ((n : Int) + 1) → False) ∧
    (',' ∈ intChars ((n : Int) + 1) → False) ∧
    intChars ((n : Int) + 1) ≠ [] ∧
    ∀ c ∈ intChars ((n : Int) + 1), c.isWhitespace = false := by decide

/-- The facts of `intChars_good`, stated for an integer in 1..31. -/
theorem intChars_facts (z : Int) (h1 : 1 ≤ z) (h2 : z ≤ 31) :
    parseI32 (intChars z) = some z ∧ '-' ∉ intChars z ∧ ',' ∉ intChars z ∧
    intChars z ≠ [] ∧ ∀ c ∈ intChars z, c.isWhitespace = false := by
  obtain ⟨n, rfl⟩ : ∃ n : Nat, z = (n : Int) + 1 := ⟨(z - 1).toNat, by omega⟩
  exact intChars_good n (by omega)

/-- Dropping leading whitespace does nothing to an all-non-whitespace text. -/
theorem dropWhile_ws_eq_self (s : List Char)
    (h : ∀ c ∈ s, c.isWhitespace = false) :
    s.dropWhile Char.isWhitespace = s := by
  cases s with
  | nil => rfl
  | cons a t => rw [List.dropWhile_cons, if_neg (by simp [h a (by simp)])]

/-- Trimming does nothing to an all-non-whitespace text. -/
theorem trim_eq_self_of_all (s : List Char)
    (h : ∀ c ∈ s, c.isWhitespace = false) : trim s = s := by
  rw [trim, trimLeft, dropWhile_ws_eq_self s h,
    dropWhile_ws_eq_self _ (fun c hc => h c (List.mem_reverse.mp hc)),
    List.reverse_reverse]

/-- Trimming strips the single leading space of a joined token. -/
theorem trim_space_cons (s : List Char)
    (h : ∀ c ∈ s, c.isWhitespace = false) : trim (' ' :: s) = s := by
  rw [trim, trimLeft, List.dropWhile_cons, if_pos (by decide),
    dropWhile_ws_eq_self s h,
    dropWhile_ws_eq_self _ (fun c hc => h c (List.mem_reverse.mp hc)),
    List.reverse_reverse]

/-- Splitting a text without the separator yields a single field. -/
theorem splitAux_no_sep : ∀ (s acc : List Char) (c : Char), c ∉ s →
    splitAux c s acc = [acc.reverse ++ s] := by
  intro s
  induction s with
  | nil => intro acc c _; simp [splitAux]
  | cons x xs ih =>
    intro acc c h
    rw [splitAux, if_neg (by rintro rfl; exact h (by simp))]
    rw [ih (x :: acc) c (fun hc => h (by simp [hc]))]
    simp

/-- Splitting at the first separator occurrence. -/
theorem splitAux_sep_append : ∀ (s t acc : List Char) (c : Char), c ∉ s →
    splitAux c (s ++ c :: t) acc = (acc.reverse ++ s) :: splitAux c t [] := by
  intro s
  induction s with
  | nil => intro t acc c _; simp [splitAux]
  | cons x xs ih =>
    intro t acc c h
    simp only [List.cons_append, splitAux, List.append_eq]
    rw [if_neg (by rintro rfl; exact h (by simp))]
    rw [ih t (x :: acc) c (fun hc => h (by simp [hc]))]
    simp

/-- Splitting a comma-joined list of comma-free fields recovers the fields,
each field after the first carrying the separator's trailing space. -/
theorem splitAux_joinComma : ∀ (ps : List (List Char)) (q acc : List Char),
    ',' ∉ q → (∀ p ∈ ps, ',' ∉ p) →
    splitAux ',' (joinComma (q :: ps)) acc =
      (acc.reverse ++ q) :: ps.map (fun p => ' ' :: p) := by
  intro ps
  induction ps with
  | nil =>
    intro q acc hq _
    simp only [joinComma]
    rw [splitAux_no_sep q acc ',' hq]
    simp
  | cons p ps ih =>
    intro q acc hq hps
    simp only [joinComma]
    rw [splitAux_sep_append q (' ' :: joinComma (p :: ps)) acc ',' hq]
    congr 1
    rw [splitAux, if_neg (by decide)]
    rw [ih p [' '] (hps p (by simp)) (fun r hr => hps r (by simp [hr]))]
    simp

/-- `splitOnChar` version of `splitAux_joinComma`. -/
theorem splitOnChar_joinComma (ps : List (List Char)) (q : List Char)
    (hq : ',' ∉ q) (hps : ∀ p ∈ ps, ',' ∉ p) :
    splitOnChar ',' (joinComma (q :: ps)) = q :: ps.map (fun p => ' ' :: p) := by
  rw [splitOnChar, splitAux_joinComma ps q [] hq hps]
  simp

/-- A rendered run is nonempty, whitespace-free and comma-free. -/
theorem renderRange_facts (a b : Int) (h1 : 1 ≤ a) (h2 : a ≤ b) (h3 : b ≤ 31) :
    renderRange a b ≠ [] ∧ (∀ c ∈ renderRange a b, c.isWhitespace = false) ∧
    ',' ∉ renderRange a b := by
  obtain ⟨fa1, fa2, fa3, fa4, fa5⟩ := intChars_facts a h1 (by omega)
  obtain ⟨fb1, fb2, fb3, fb4, fb5⟩ := intChars_facts b (by omega) h3
  rw [renderRange]
  split
  · exact ⟨fa4, fa5, fa3⟩
  · refine ⟨by simp, ?_, ?_⟩
    · intro c hc
      rcases List.mem_append.mp hc with hc | hc
      · exact fa5 c hc
      · rcases List.mem_cons.mp hc with rfl | hc
        · decide
        · exact fb5 c hc
    · intro hc
      rcases List.mem_append.mp hc with hc | hc
      · exact fa3 hc
      · rcases List.mem_cons.mp hc with hc | hc
        · exact absurd hc (by decide)
        · exact fb3 hc

/-- Every field emitted by the run-building loop is a rendered in-bounds
run. -/
theorem buildRanges_parts : ∀ (rest : List Int) (rs re : Int),
    1 ≤ rs → rs ≤ re → re ≤ 31 → List.Chain (· < ·) re rest →
    (∀ x ∈ rest, x ≤ 31) →
    ∀ p ∈ buildRanges rs re rest,
      ∃ a b, p = renderRange a b ∧ 1 ≤ a ∧ a ≤ b ∧ b ≤ 31 := by
  intro rest
  induction rest with
  | nil =>
    intro rs re h1 h2 h3 _ _ p hp
    simp only [buildRanges, List.mem_singleton] at hp
    exact ⟨rs, re, hp, h1, h2, h3⟩
  | cons d rest ih =>
    intro rs re h1 h2 h3 hchain hbound p hp
    rw [List.chain_cons] at hchain
    rw [buildRanges] at hp
    split at hp
    next heq =>
      exact ih rs d h1 (by omega) (hbound d (by simp)) hchain.2
        (fun x hx => hbound x (by simp [hx])) p hp
    next hne =>
      rcases List.mem_cons.mp hp with rfl | hp
      · exact ⟨rs, re, rfl, h1, h2, h3⟩
      · exact ih d d (by omega) le_rfl (hbound d (by simp)) hchain.2
          (fun x hx => hbound x (by simp [hx])) p hp

/-- The run-building loop's first field is a run starting at `rs`. -/
theorem buildRanges_first : ∀ (rest : List Int) (rs re : Int),
    ∃ e2 tl, buildRanges rs re rest = renderRange rs e2 :: tl := by
  intro rest
  induction rest with
  | nil => intro rs re; exact ⟨re, [], rfl⟩
  | cons d rest ih =>
    intro rs re
    rw [buildRanges]
    split
    · exact ih rs d
    · exact ⟨re, buildRanges d d rest, rfl⟩

/-- A comma-join headed by a nonempty field is nonempty. -/
theorem joinComma_ne_nil : ∀ (ps : List (List Char)) (q : List Char),
    q ≠ [] → joinComma (q :: ps) ≠ [] := by
  intro ps q hq
  cases ps with
  | nil => simpa [joinComma] using hq
  | cons p ps => simp [joinComma]

/-- The head of a comma-join is the head of its first field. -/
theorem joinComma_head : ∀ (ps : List (List Char)) (a : Char) (q' : List Char),
    (joinComma ((a :: q') :: ps)).head? = some a := by
  intro ps a q'
  cases ps with
  | nil => rfl
  | cons p ps => rfl

/-- The last character of a comma-join of nonempty whitespace-free fields
is not whitespace. -/
theorem joinComma_last_not_ws : ∀ (ps : List (List Char)) (q : List Char),
    q ≠ [] → (∀ c ∈ q, c.isWhitespace = false) →
    (∀ p ∈ ps, p ≠ [] ∧ ∀ c ∈ p, c.isWhitespace = false) →
    ∀ c, (joinComma (q :: ps)).getLast? = some c → c.isWhitespace = false := by
  intro ps
  induction ps with
  | nil =>
    intro q hq hqc _ c hc
    simp only [joinComma] at hc
    exact hqc c (List.mem_of_mem_getLast? hc)
  | cons p ps ih =>
    intro q hq hqc hps c hc
    simp only [joinComma] at hc
    rw [List.getLast?_append_of_ne_nil q (by simp)] at hc
    have hjoin : joinComma (p :: ps) ≠ [] := joinComma_ne_nil ps p (hps p (by simp)).1
    rw [show (',' :: ' ' :: joinComma (p :: ps)) = [',', ' '] ++ joinComma (p :: ps) from rfl,
      List.getLast?_append_of_ne_nil _ hjoin] at hc
    exact ih p (hps p (by simp)).1 (hps p (by simp)).2
      (fun r hr => hps r (by simp [hr])) c hc

/-- A one-day run pushes exactly one day. -/
theorem closedRange_singleton (a : Int) : closedRange a a = [a] := by
  have h : (a + 1 - a).toNat = 1 := by omega
  rw [closedRange, h, List.range_succ, List.range_zero, List.nil_append,
    List.map_cons, List.map_nil]
  norm_num

/-- Extending a run by one day appends that day. -/
theorem closedRange_snoc (s e : Int) (h : s ≤ e + 1) :
    closedRange s (e + 1) = closedRange s e ++ [e + 1] := by
  rw [closedRange, closedRange]
  have hn : (e + 1 + 1 - s).toNat = (e + 1 - s).toNat + 1 := by omega
  rw [hn, List.range_succ, List.map_append, List.map_cons, List.map_nil]
  have hv : s + ((e + 1 - s).toNat : Int) = e + 1 := by omega
  rw [hv]

/-- The push loop succeeds on an in-bounds run and appends it. -/
theorem pushRangeGo_ok : ∀ (k : Nat) (d : Int) (days : List Int),
    1 ≤ d → d + (k : Int) ≤ 32 →
    pushRangeGo d k days =
      .ok (days ++ List.map (fun i : Nat => d + (i : Int)) (List.range k)) := by
  intro k
  induction k with
  | zero =>
    intro d days _ _
    simp [pushRangeGo]
  | succ k ih =>
    intro d days h1 h2
    rw [pushRangeGo, if_neg (by omega)]
    rw [ih (d + 1) (days ++ [d]) (by omega) (by push_cast at h2 ⊢; omega)]
    rw [List.range_succ_eq_map, List.map_cons, List.map_map]
    have hfun : ((fun i : Nat => d + (i : Int)) ∘ Nat.succ) =
        (fun i : Nat => d + 1 + (i : Int)) := by
      funext i
      simp only [Function.comp]
      push_cast
      ring
    rw [hfun]
    simp

/-- Processing one rendered run token pushes exactly that run. -/
theorem process_token (p : List Char) (ps : List (List Char)) (acc : List Int)
    (a b : Int) (htrim : trim p = renderRange a b)
    (h1 : 1 ≤ a) (h2 : a ≤ b) (h3 : b ≤ 31) :
    processParts (p :: ps) acc = processParts ps (acc ++ closedRange a b) := by
  obtain ⟨fa1, fa2, fa3, fa4, fa5⟩ := intChars_facts a h1 (by omega)
  obtain ⟨fb1, fb2, fb3, fb4, fb5⟩ := intChars_facts b (by omega) h3
  obtain ⟨hr1, hr2, hr3⟩ := renderRange_facts a b h1 h2 h3
  simp only [processParts, htrim]
  rw [if_neg hr1]
  by_cases hab : a = b
  · subst hab
    rw [show renderRange a a = intChars a from by rw [renderRange, if_pos rfl]]
    have hcont : (intChars a).contains '-' = false := by
      rw [Bool.eq_false_iff]
      intro hc
      exact fa2 (List.mem_of_elem_eq_true hc)
    rw [if_neg (by rw [hcont]; exact Bool.false_ne_true)]
    split
    next heq =>
      rw [fa1] at heq
      simp at heq
    next day heq =>
      rw [fa1] at heq
      injection heq with heq
      subst heq
      rw [if_neg (by omega), closedRange_singleton]
  · have hlt : a < b := lt_of_le_of_ne h2 hab
    rw [show renderRange a b = intChars a ++ '-' :: intChars b from by
      rw [renderRange, if_neg hab]]
    have hcont : (intChars a ++ '-' :: intChars b).contains '-' = true :=
      List.elem_eq_true_of_mem (by simp)
    rw [if_pos hcont]
    have hsplit : splitOnChar '-' (intChars a ++ '-' :: intChars b) =
        [intChars a, intChars b] := by
      rw [splitOnChar, splitAux_sep_append (intChars a) (intChars b) [] '-' fa2,
        splitAux_no_sep (intChars b) [] '-' fb2]
      simp
    split
    next a1 b1 heq =>
      rw [hsplit] at heq
      injection heq with ha1 heq
      injection heq with hb1 _
      subst ha1
      subst hb1
      split
      next heq2 =>
        rw [trim_eq_self_of_all _ fa5, fa1] at heq2
        simp at heq2
      next start heq2 =>
        rw [trim_eq_self_of_all _ fa5, fa1] at heq2
        injection heq2 with heq2
        subst heq2
        split
        next heq3 =>
          rw [trim_eq_self_of_all _ fb5, fb1] at heq3
          simp at heq3
        next stop heq3 =>
          rw [trim_eq_self_of_all _ fb5, fb1] at heq3
          injection heq3 with heq3
          subst heq3
          rw [if_neg (by omega)]
          have hpush : pushRangeGo a (b + 1 - a).toNat acc =
              .ok (acc ++ closedRange a b) := by
            rw [pushRangeGo_ok ((b + 1 - a).toNat) a acc h1 (by omega), closedRange]
          split
          next e heq4 =>
            rw [hpush] at heq4
            simp at heq4
          next days2 heq4 =>
            rw [hpush] at heq4
            injection heq4 with heq4
            subst heq4
            rfl
    next hne2 =>
      exact absurd hsplit (hne2 (intChars a) (intChars b))

/-- Processing the fields of the run-building loop appends exactly the runs'
days, which reassemble the strictly sorted input list. -/
theorem processParts_buildRanges : ∀ (rest : List Int) (rs re : Int)
    (ps : List (List Char)) (acc : List Int),
    1 ≤ rs → rs ≤ re → re ≤ 31 → List.Chain (· < ·) re rest →
    (∀ x ∈ rest, x ≤ 31) →
    ps.map trim = buildRanges rs re rest →
    processParts ps acc = .ok (acc ++ closedRange rs re ++ rest) := by
  intro rest
  induction rest with
  | nil =>
    intro rs re ps acc h1 h2 h3 _ _ hps
    simp only [buildRanges] at hps
    cases ps with
    | nil => simp at hps
    | cons p ps' =>
      cases ps' with
      | nil =>
        simp only [List.map_cons, List.map_nil, List.cons.injEq, and_true] at hps
        rw [process_token p [] acc rs re hps h1 h2 h3]
        simp [processParts]
      | cons q ps'' => simp at hps
  | cons d rest ih =>
    intro rs re ps acc h1 h2 h3 hchain hbound hps
    rw [List.chain_cons] at hchain
    rw [buildRanges] at hps
    split at hps
    next heq =>
      subst heq
      have hrec := ih rs (re + 1) ps acc h1 (by omega) (hbound _ (by simp)) hchain.2
        (fun x hx => hbound x (by simp [hx])) hps
      rw [hrec, closedRange_snoc rs re (by omega)]
      simp
    next hne =>
      cases ps with
      | nil => simp at hps
      | cons p ps' =>
        simp only [List.map_cons, List.cons.injEq] at hps
        have hd1 : 1 ≤ d := by omega
        have hd31 : d ≤ 31 := hbound d (by simp)
        rw [process_token p ps' acc rs re hps.1 h1 h2 h3]
        rw [ih d d ps' (acc ++ closedRange rs re) hd1 le_rfl hd31 hchain.2
          (fun x hx => hbound x (by simp [hx])) hps.2]
        rw [closedRange_singleton]
        simp

/-- Trimming does nothing when the first and last characters are not
whitespace. -/
theorem trim_eq_self_ends (s : List Char)
    (hh : ∀ c, s.head? = some c → c.isWhitespace = false)
    (hl : ∀ c, s.getLast? = some c → c.isWhitespace = false) :
    trim s = s := by
  cases s with
  | nil => rfl
  | cons a t =>
    rw [trim, trimLeft, List.dropWhile_cons,
      if_neg (by rw [hh a rfl]; exact Bool.false_ne_true)]
    cases hrev : (a :: t).reverse with
    | nil => exact absurd hrev (by simp)
    | cons b u =>
      have hb : (a :: t).getLast? = some b := by
        rw [← List.head?_reverse, hrev]
        rfl
      rw [List.dropWhile_cons,
        if_neg (by rw [hl b hb]; exact Bool.false_ne_true), ← hrev,
        List.reverse_reverse]

/-- The semantic round trip: formatting any valid non-empty day list and
parsing it back yields the sort-and-dedup normal form of the list. -/
theorem parse_format_roundtrip (d : List Int) (hne : d ≠ [])
    (hb : ∀ x ∈ d, 1 ≤ x ∧ x ≤ 31) :
    parse_day_range (format_day_range d) =
      .ok (dedupConsec (List.insertionSort (· ≤ ·) d)) := by
  set L := dedupConsec (List.insertionSort (· ≤ ·) d) with hL
  have hsortedle : (List.insertionSort (· ≤ ·) d).Sorted (· ≤ ·) :=
    List.sorted_insertionSort _ d
  have hsorted : L.Sorted (· < ·) := dedupConsec_sorted _ hsortedle
  have hLne : L ≠ [] := by
    apply dedupConsec_ne_nil
    intro hnil
    apply hne
    have hperm := List.perm_insertionSort (· ≤ ·) d
    rw [hnil] at hperm
    exact List.Perm.eq_nil hperm.symm
  have hLmem : ∀ x ∈ L, 1 ≤ x ∧ x ≤ 31 := fun x hx =>
    hb x ((List.mem_insertionSort _).mp ((mem_dedupConsec _ x).mp hx))
  obtain ⟨d0, rest, hLeq⟩ : ∃ d0 rest, L = d0 :: rest := by
    cases hLc : L with
    | nil => exact absurd hLc hLne
    | cons x t => exact ⟨x, t, rfl⟩
  have hchain : List.Chain (· < ·) d0 rest :=
    List.chain_iff_pairwise.mpr (hLeq ▸ hsorted)
  have hd0b : 1 ≤ d0 ∧ d0 ≤ 31 := hLmem d0 (by rw [hLeq]; simp)
  have hrestb : ∀ x ∈ rest, x ≤ 31 := fun x hx =>
    (hLmem x (by rw [hLeq]; simp [hx])).2
  have hparts := buildRanges_parts rest d0 d0 hd0b.1 le_rfl hd0b.2 hchain hrestb
  have hpfacts : ∀ p ∈ buildRanges d0 d0 rest,
      p ≠ [] ∧ (∀ c ∈ p, c.isWhitespace = false) ∧ ',' ∉ p := by
    intro p hp
    obtain ⟨a, b, rfl, ha1, hab, hb31⟩ := hparts p hp
    exact renderRange_facts a b ha1 hab hb31
  obtain ⟨e2, tl, hfirst⟩ := buildRanges_first rest d0 d0
  have hmem1 : renderRange d0 e2 ∈ buildRanges d0 d0 rest := by
    rw [hfirst]
    simp
  obtain ⟨hp1, hp2, hp3⟩ := hpfacts _ hmem1
  have htl : ∀ p ∈ tl, p ≠ [] ∧ (∀ c ∈ p, c.isWhitespace = false) ∧ ',' ∉ p :=
    fun p hp => hpfacts p (by rw [hfirst]; simp [hp])
  have hformat : format_day_range d = joinComma (buildRanges d0 d0 rest) := by
    rw [format_day_range, if_neg hne, ← hL, hLeq]
  have hJne : joinComma (buildRanges d0 d0 rest) ≠ [] := by
    rw [hfirst]
    exact joinComma_ne_nil tl (renderRange d0 e2) hp1
  have hJtrim : trim (joinComma (buildRanges d0 d0 rest)) =
      joinComma (buildRanges d0 d0 rest) := by
    apply trim_eq_self_ends
    · intro c hc
      cases hrr : renderRange d0 e2 with
      | nil => exact absurd hrr hp1
      | cons c0 q' =>
        rw [hfirst, hrr, joinComma_head] at hc
        injection hc with hc
        subst hc
        exact hp2 _ (by rw [hrr]; simp)
    · intro c hc
      rw [hfirst] at hc
      exact joinComma_last_not_ws tl (renderRange d0 e2) hp1 hp2
        (fun p hp => ⟨(htl p hp).1, (htl p hp).2.1⟩) c hc
  have hsplitJ : splitOnChar ',' (joinComma (buildRanges d0 d0 rest)) =
      renderRange d0 e2 :: tl.map (fun p => ' ' :: p) := by
    rw [hfirst]
    exact splitOnChar_joinComma tl (renderRange d0 e2) hp3 (fun p hp => (htl p hp).2.2)
  have hmap : (renderRange d0 e2 :: tl.map (fun p => ' ' :: p)).map trim =
      buildRanges d0 d0 rest := by
    rw [hfirst]
    simp only [List.map_cons, List.map_map]
    congr 1
    · exact trim_eq_self_of_all _ hp2
    · have hcomp : ∀ p ∈ tl, (trim ∘ fun q => ' ' :: q) p = id p :=
        fun p hp => trim_space_cons p (htl p hp).2.1
      rw [List.map_congr_left hcomp, List.map_id]
  have hprocess := processParts_buildRanges rest d0 d0
    (renderRange d0 e2 :: tl.map (fun p => ' ' :: p)) []
    hd0b.1 le_rfl hd0b.2 hchain hrestb hmap
  rw [hformat]
  simp only [parse_day_range, hJtrim]
  rw [if_neg hJne, hsplitJ]
  split
  next e heq =>
    rw [hprocess] at heq
    simp at heq
  next days heq =>
    rw [hprocess] at heq
    injection heq with heq
    subst heq
    have hdays : ([] ++ closedRange d0 d0 ++ rest : List Int) = d0 :: rest := by
      rw [closedRange_singleton]
      simp
    rw [hdays, if_neg (by simp), ← hLeq,
      List.Sorted.insertionSort_eq (hsorted.imp le_of_lt), dedupConsec_eq_self L hsorted]

/-- C4: the day-range codec round trip.  First form: re-parsing the
formatting of any successful parse gives the same result.  Second form: for
every valid non-empty day list, parsing its formatting yields the list
sorted ascending with duplicates removed. -/
theorem c4_roundtrip :
    (∀ (x : List Char) (l : List Int), parse_day_range x = .ok l →
      parse_day_range (format_day_range l) = parse_day_range x) ∧
    (∀ d : List Int, d ≠ [] → (∀ x ∈ d, 1 ≤ x ∧ x ≤ 31) →
      parse_day_range (format_day_range d) =
        .ok (dedupConsec (List.insertionSort (· ≤ ·) d))) := by
  have hsecond : ∀ d : List Int, d ≠ [] → (∀ x ∈ d, 1 ≤ x ∧ x ≤ 31) →
      parse_day_range (format_day_range d) =
        .ok (dedupConsec (List.insertionSort (· ≤ ·) d)) :=
    parse_format_roundtrip
  refine ⟨?_, hsecond⟩
  intro x l h
  obtain ⟨hne, hsorted, hmem⟩ := parse_ok_props x l h
  rw [hsecond l hne hmem, h,
    List.Sorted.insertionSort_eq (hsorted.imp le_of_lt), dedupConsec_eq_self l hsorted]

/-- C4 witness: formatting and re-parsing the unsorted duplicated list
`[7, 3, 3, 1]` yields its normal form `[1, 3, 7]`. -/
theorem c4_witness : parse_day_range (format_day_range [7, 3, 3, 1]) = .ok [1, 3, 7] :=
  c4_roundtrip.2 [7, 3, 3, 1] (by decide) (by decide)

end Chores
